import Mathlib

/-!
Verification of the wine-catalog application (src/app.py).

Shallow embedding conventions:
* Python strings are modelled as List Char; a String literal s is converted
  with s.data (definition txt below).
* Python str.lower is modelled by ASCII case folding (asciiLower); every
  keyword the classifier tests is ASCII, so the model agrees with CPython on
  all ASCII inputs.
* Python float parsing (float(v) inside safe_float) is modelled by an exact
  decimal parser parseDec : List Char → Option Dec covering optional sign,
  integer digits and an optional fractional part, where Dec is an exact
  decimal number (integer mantissa over a power-of-ten denominator) and
  comparison is exact cross-multiplied integer comparison.  Binary
  floating-point rounding, exponents and the inf/nan spellings are
  idealised away.
* Python sorted(..., key=k) is a stable sort; it is modelled by Mathlib's
  List.insertionSort over the total preorder induced by the key, which is the
  same stable sort.  sorted(..., reverse=True) is stable descending and is
  modelled by insertionSort over the reversed key comparison.
* A Python set of tag strings is modelled as a duplicate-free list; the
  serialisation sorted(tags) is modelled by insertionSort over lexicographic
  string order.
-/

namespace WineApp

/-- Convert a Lean string literal to the List Char text representation. -/
def txt (s : String) : List Char := s.data

/-- ASCII case folding, modelling str.lower on the ASCII range. -/
def asciiLower (c : Char) : Char :=
  if 65 ≤ c.toNat ∧ c.toNat ≤ 90 then Char.ofNat (c.toNat + 32) else c

/-- Lower-case a whole text, modelling text.lower(). -/
def lowerTxt (t : List Char) : List Char := t.map asciiLower

/-- listStarts p s is true when p is an initial segment of s. -/
def listStarts : List Char → List Char → Bool
  | [], _ => true
  | _ :: _, [] => false
  | p :: ps, c :: cs => p == c && listStarts ps cs

/-- occurs p s models the Python substring test p in s. -/
def occurs (p : List Char) : List Char → Bool
  | [] => listStarts p []
  | c :: cs => listStarts p (c :: cs) || occurs p cs

/-- hasAny ws t models any(w in t for w in ws). -/
def hasAny (ws : List (List Char)) (t : List Char) : Bool :=
  ws.any (fun w => occurs w t)

/-- Lexicographic comparison of texts by code point, modelling Python
string comparison used by sorted(tags). -/
def lexLe : List Char → List Char → Bool
  | [], _ => true
  | _ :: _, [] => false
  | a :: as, b :: bs => if a < b then true else if b < a then false else lexLe as bs

/-- The Prop form of lexLe, used as the sorting relation for tag names. -/
def lexR (a b : List Char) : Prop := lexLe a b = true

instance : DecidableRel lexR := fun a b => inferInstanceAs (Decidable (lexLe a b = true))

/-- splitCommaSpace models Python s.split with separator comma-space:
leftmost-first splitting on each occurrence of the two-character separator. -/
def splitCommaSpace : List Char → List (List Char)
  | [] => [[]]
  | ',' :: ' ' :: rest => [] :: splitCommaSpace rest
  | c :: rest =>
    match splitCommaSpace rest with
    | [] => [[c]]
    | g :: gs => (c :: g) :: gs

/-- Numeric value of a digit string, most significant first. -/
def digitsToNat (ds : List Char) : Nat :=
  ds.foldl (fun a c => 10 * a + (c.toNat - 48)) 0

/-- An exact decimal number: the value mant / 10 ^ exp.  This represents a
parsed numeric field exactly; all comparisons are exact. -/
structure Dec where
  mant : Int
  exp : Nat
deriving DecidableEq, Repr

/-- Value-level order on decimals, by cross multiplication. -/
def Dec.le (a b : Dec) : Prop :=
  a.mant * (10 : Int) ^ b.exp ≤ b.mant * (10 : Int) ^ a.exp

/-- Value-level strict order on decimals. -/
def Dec.lt (a b : Dec) : Prop :=
  a.mant * (10 : Int) ^ b.exp < b.mant * (10 : Int) ^ a.exp

/-- Value-level equality on decimals (two representations may denote the
same number, so this is coarser than structural equality). -/
def Dec.veq (a b : Dec) : Prop :=
  a.mant * (10 : Int) ^ b.exp = b.mant * (10 : Int) ^ a.exp

instance (a b : Dec) : Decidable (a.le b) :=
  inferInstanceAs (Decidable (_ ≤ _))

instance (a b : Dec) : Decidable (a.lt b) :=
  inferInstanceAs (Decidable (_ < _))

instance (a b : Dec) : Decidable (a.veq b) :=
  inferInstanceAs (Decidable (_ = _))

/-- Parse an unsigned decimal literal: digits, optionally followed by a dot
and further digits; a bare dot is rejected. -/
def parseUnsigned (s : List Char) : Option Dec :=
  let ip := s.takeWhile Char.isDigit
  let rest := s.drop ip.length
  match rest with
  | [] => if ip = [] then none else some ⟨(digitsToNat ip : Int), 0⟩
  | '.' :: fp =>
    if fp.all Char.isDigit ∧ (ip ≠ [] ∨ fp ≠ []) then
      some ⟨(digitsToNat ip * 10 ^ fp.length + digitsToNat fp : Int), fp.length⟩
    else none
  | _ => none

/-- parseDec models float(v) for plain decimal literals with optional sign;
inputs float(v) would reject are sent to none.  safe_float in app.py is
parseDec followed by a default for the none case. -/
def parseDec (s : List Char) : Option Dec :=
  match s with
  | '-' :: rest => (parseUnsigned rest).map (fun d => ⟨-d.mant, d.exp⟩)
  | '+' :: rest => parseUnsigned rest
  | _ => parseUnsigned s

/-- Characters removed by Python str.strip (ASCII whitespace). -/
def isSpaceChar (c : Char) : Bool :=
  c == ' ' || c == '\t' || c == '\n' || c == '\r' || c == '\x0b' || c == '\x0c'

/-- stripTxt models str.strip(): remove leading and trailing whitespace. -/
def stripTxt (s : List Char) : List Char :=
  ((s.dropWhile isSpaceChar).reverse.dropWhile isSpaceChar).reverse

/-- The dry-indicator keyword list of sweetness_from_desc. -/
def dry_words : List (List Char) :=
  [txt "bone-dry", txt "bone dry", txt "very dry", txt "crisp", txt "taut",
   txt "zesty", txt "racy acidity", txt "high acidity", txt "bracing acidity",
   txt "lean", txt "minerally", txt "chalky", txt "steely"]

/-- The medium-indicator keyword list of sweetness_from_desc. -/
def medium_words : List (List Char) :=
  [txt "off-dry", txt "off dry", txt "hint of sweetness", txt "touch of sweetness",
   txt "slightly sweet", txt "trace of sweetness", txt "kiss of sweetness",
   txt "ripe fruit", txt "lush", txt "round and fruity"]

/-- The sweet-indicator keyword list of sweetness_from_desc. -/
def sweet_words : List (List Char) :=
  [txt "dessert wine", txt "dessert-style", txt "late harvest", txt "ice wine",
   txt "port", txt "sauternes", txt "moscato", txt "sticky",
   txt "honeyed", txt "very sweet", txt "syrupy", txt "unctuous"]

/-- Embedding of sweetness_from_desc from app.py. -/
def sweetness_from_desc (t : List Char) : List Char :=
  if t = [] then txt "Medium"
  else
    let tl := lowerTxt t
    let has_dry := hasAny dry_words tl
    let has_med := hasAny medium_words tl
    let has_sweet := hasAny sweet_words tl
    if has_sweet then
      if has_dry || has_med then txt "Medium" else txt "Sweet"
    else if has_dry && !has_med then txt "Dry"
    else if has_med then txt "Medium"
    else if occurs (txt "dry") tl then txt "Dry"
    else txt "Medium"

/-- The fruity keyword list of style_tags_from_desc. -/
def fruity_words : List (List Char) :=
  [txt "fruit", txt "berries", txt "berry", txt "plum", txt "peach", txt "apple",
   txt "pear", txt "cherry", txt "citrus", txt "orange", txt "lemon", txt "lime",
   txt "grapefruit", txt "tropical", txt "mango", txt "pineapple"]

/-- The spicy keyword list of style_tags_from_desc. -/
def spicy_words : List (List Char) :=
  [txt "spice", txt "spicy", txt "pepper", txt "clove", txt "cinnamon",
   txt "nutmeg", txt "anise"]

/-- The floral keyword list of style_tags_from_desc. -/
def floral_words : List (List Char) :=
  [txt "floral", txt "flower", txt "violet", txt "rose", txt "jasmine",
   txt "honeysuckle"]

/-- The earthy keyword list of style_tags_from_desc. -/
def earthy_words : List (List Char) :=
  [txt "earthy", txt "earth", txt "mushroom", txt "forest floor", txt "leather",
   txt "tobacco"]

/-- The tag set built from the four keyword-group tests on an already
lower-cased text; the Python set is represented as a duplicate-free list in
the order the code adds the tags. -/
def tagList (tl : List Char) : List (List Char) :=
  (cond (hasAny fruity_words tl) [txt "Fruity"] []) ++
  (cond (hasAny spicy_words tl) [txt "Spicy"] []) ++
  (cond (hasAny floral_words tl) [txt "Floral"] []) ++
  (cond (hasAny earthy_words tl) [txt "Earthy"] [])

/-- Embedding of style_tags_from_desc from app.py. -/
def style_tags_from_desc (t : List Char) : List (List Char) :=
  if t = [] then [] else tagList (lowerTxt t)

/-- Comma-space joining of tag names, modelling the join in load_wines. -/
def joinCommaSpace (ts : List (List Char)) : List Char :=
  List.intercalate (txt ", ") ts

/-- serializeTags models join of sorted(tags) in load_wines: sort the tag
set alphabetically and join with comma-space. -/
def serializeTags (ts : List (List Char)) : List Char :=
  joinCommaSpace (List.insertionSort lexR ts)

/-- One input row of the dataset, with the columns load_wines reads.
description is the row description with the "or empty" default of the
source already applied. -/
structure Row where
  title : List Char
  description : List Char
  price : List Char
  points : List Char
  country : List Char
  variety : List Char
deriving DecidableEq, Repr

/-- One catalog record: the row fields plus the derived fields attached by
load_wines. -/
structure Wine where
  title : List Char
  description : List Char
  price : List Char
  points : List Char
  country : List Char
  variety : List Char
  sweetness_cat : List Char
  style_tags : List Char
deriving DecidableEq, Repr

/-- The record load_wines builds from one accepted row. -/
def mkWineRec (r : Row) : Wine :=
  { title := r.title
    description := r.description
    price := stripTxt r.price
    points := stripTxt r.points
    country := r.country
    variety := r.variety
    sweetness_cat := sweetness_from_desc r.description
    style_tags := serializeTags (style_tags_from_desc r.description) }

/-- The configured row limit LOAD_LIMIT of app.py. -/
def LOAD_LIMIT : Nat := 5000

/-- The loader loop of load_wines: n is the number of records appended so
far; a row with an empty title is skipped; after appending, the loop stops
as soon as the count reaches the limit. -/
def loadWinesAux (limit : Nat) : List Row → Nat → List Wine
  | [], _ => []
  | r :: rs, n =>
    if r.title = [] then loadWinesAux limit rs n
    else
      if n + 1 ≥ limit then [mkWineRec r]
      else mkWineRec r :: loadWinesAux limit rs (n + 1)

/-- Embedding of load_wines from app.py, over an already-parsed row list
(CSV reading is external plumbing). -/
def load_wines (limit : Nat) (rows : List Row) : List Wine :=
  loadWinesAux limit rows 0

/-- safe_float applied to a record price, as used by the sort keys: the
parsed value, or the given default when parsing fails. -/
def priceKeyAsc (w : Wine) : Dec := (parseDec w.price).getD ⟨10 ^ 9, 0⟩

/-- The descending-price sort key default of app.py. -/
def priceKeyDesc (w : Wine) : Dec := (parseDec w.price).getD ⟨-1, 0⟩

/-- The rating-points sort key: safe_float(points, 0). -/
def pointsKey (w : Wine) : Dec := (parseDec w.points).getD ⟨0, 0⟩

/-- Comparison used by sorted(key=price ascending): a before b when the
ascending key of a is at most that of b. -/
def ascR (a b : Wine) : Prop := (priceKeyAsc a).le (priceKeyAsc b)

/-- Comparison used by sorted(key=price, reverse=True): descending keys. -/
def descR (a b : Wine) : Prop := (priceKeyDesc b).le (priceKeyDesc a)

/-- Comparison used by sorted(key=points, reverse=True). -/
def ptsR (a b : Wine) : Prop := (pointsKey b).le (pointsKey a)

instance : DecidableRel ascR :=
  fun _ _ => inferInstanceAs (Decidable (Dec.le _ _))

instance : DecidableRel descR :=
  fun _ _ => inferInstanceAs (Decidable (Dec.le _ _))

instance : DecidableRel ptsR :=
  fun _ _ => inferInstanceAs (Decidable (Dec.le _ _))

/-- The sorting step of index: Python sorted is stable, so it is modelled
by stable insertion sort over the corresponding key comparison; any other
sort value leaves the filtered list in input order. -/
def sortWines (sort : List Char) (l : List Wine) : List Wine :=
  if sort = txt "price_asc" then List.insertionSort ascR l
  else if sort = txt "price_desc" then List.insertionSort descR l
  else if sort = txt "points_desc" then List.insertionSort ptsR l
  else l

/-- A record has a valid price when safe_float succeeds on its price. -/
def hasPrice (w : Wine) : Bool := (parseDec w.price).isSome

/-- The max-price filter of index: skipped when the parameter is empty or
fails to parse; otherwise keeps records whose price parses and is at most
the bound. -/
def applyMaxPrice (mp : List Char) (l : List Wine) : List Wine :=
  if mp = [] then l
  else
    match parseDec mp with
    | some p =>
      l.filter (fun w =>
        match parseDec w.price with
        | some q => decide (q.le p)
        | none => false)
    | none => l

/-- The style filter of index: applied only for a non-empty style value;
keeps records whose (truthy) style_tags field, split on comma-space,
contains the requested tag exactly. -/
def applyStyle (st : List Char) (l : List Wine) : List Wine :=
  if st = [] then l
  else l.filter (fun w =>
    decide (w.style_tags ≠ [] ∧ st ∈ splitCommaSpace w.style_tags))

/-- The fixed page size of index. -/
def per_page : Nat := 12

/-- The output of the pagination step of index. -/
structure PageResult where
  results : List Wine
  total : Nat
  page : Int
  total_pages : Nat
deriving DecidableEq, Repr

/-- The pagination step of index: total pages as max(1, ceil(total /
per_page)), sequential clamping of the requested page, then the slice
filtered[start : start + per_page]. -/
def paginate (pageReq : Int) (filtered : List Wine) : PageResult :=
  let total := filtered.length
  let total_pages := max 1 ((total + per_page - 1) / per_page)
  let p1 := if pageReq < 1 then 1 else pageReq
  let p2 := if p1 > (total_pages : Int) then (total_pages : Int) else p1
  let start := ((p2 - 1) * (per_page : Int)).toNat
  { results := (filtered.drop start).take per_page
    total := total
    page := p2
    total_pages := total_pages }

/-- The sweetness decision tree exactly as the specification words it, for
the refinement comparison with sweetness_from_desc. -/
def sweetnessSpec (t : List Char) : List Char :=
  let tl := lowerTxt t
  let hd := hasAny dry_words tl
  let hm := hasAny medium_words tl
  let hs := hasAny sweet_words tl
  if hs && (hd || hm) then txt "Medium"
  else if hs then txt "Sweet"
  else if hd && !hm then txt "Dry"
  else if hm then txt "Medium"
  else if occurs (txt "dry") tl then txt "Dry"
  else txt "Medium"

/-- The four style-tag names. -/
def tagNames : List (List Char) :=
  [txt "Fruity", txt "Spicy", txt "Floral", txt "Earthy"]

/-- Strict lexicographic comparison of texts. -/
def lexLt (a b : List Char) : Bool := lexLe a b && !(lexLe b a)

/-- A strictly alphabetically ordered list of texts. -/
def sortedStrictLex : List (List Char) → Bool
  | [] => true
  | [_] => true
  | a :: b :: t => lexLt a b && sortedStrictLex (b :: t)

/-- A well-formed serialized style_tags field: empty, or a comma-space
joined, strictly alphabetically ordered list of defined tag names. -/
def tagsStrOk (s : List Char) : Bool :=
  decide (s = []) ||
    ((splitCommaSpace s).all (fun p => decide (p ∈ tagNames)) &&
      sortedStrictLex (splitCommaSpace s))

/-- The parsed price value of a record (any default works on records that
have a parseable price). -/
def priceVal (w : Wine) : Dec := (parseDec w.price).getD ⟨0, 0⟩

/-- Strict order of records by parsed price value. -/
def strictPrice (a b : Wine) : Prop := (priceVal a).lt (priceVal b)

instance : IsTotal Dec Dec.le := ⟨fun _ _ => Int.le_total _ _⟩

instance : IsTrans Dec Dec.le := by
  refine ⟨fun a b c h1 h2 => ?_⟩
  unfold Dec.le at h1 h2 ⊢
  have hb : (0 : Int) < 10 ^ b.exp := pow_pos (by norm_num) _
  have key : a.mant * 10 ^ c.exp * 10 ^ b.exp ≤ c.mant * 10 ^ a.exp * 10 ^ b.exp := by
    calc a.mant * 10 ^ c.exp * 10 ^ b.exp
        = a.mant * 10 ^ b.exp * 10 ^ c.exp := by ring
      _ ≤ b.mant * 10 ^ a.exp * 10 ^ c.exp :=
          mul_le_mul_of_nonneg_right h1 (by positivity)
      _ = b.mant * 10 ^ c.exp * 10 ^ a.exp := by ring
      _ ≤ c.mant * 10 ^ b.exp * 10 ^ a.exp :=
          mul_le_mul_of_nonneg_right h2 (by positivity)
      _ = c.mant * 10 ^ a.exp * 10 ^ b.exp := by ring
  exact le_of_mul_le_mul_right key hb

instance : IsTotal Wine ascR :=
  ⟨fun a b => IsTotal.total (priceKeyAsc a) (priceKeyAsc b)⟩

instance : IsTrans Wine ascR :=
  ⟨fun _ _ _ h1 h2 => @IsTrans.trans Dec Dec.le _ _ _ _ h1 h2⟩

instance : IsTotal Wine descR :=
  ⟨fun a b => IsTotal.total (priceKeyDesc b) (priceKeyDesc a)⟩

instance : IsTrans Wine descR :=
  ⟨fun _ _ _ h1 h2 => @IsTrans.trans Dec Dec.le _ _ _ _ h2 h1⟩

instance : IsTotal Wine ptsR :=
  ⟨fun a b => IsTotal.total (pointsKey b) (pointsKey a)⟩

instance : IsTrans Wine ptsR :=
  ⟨fun _ _ _ h1 h2 => @IsTrans.trans Dec Dec.le _ _ _ _ h2 h1⟩

instance : IsAntisymm Wine strictPrice :=
  ⟨fun _ _ h1 h2 => absurd h2 (lt_asymm h1)⟩

/-- A minimal record used to build concrete test inputs. -/
def baseWine : Wine :=
  ⟨txt "w", [], [], [], [], [], txt "Medium", []⟩

/-- A record with price 19.99, from the round-trip example. -/
def w1999 : Wine := { baseWine with price := txt "19.99" }

/-- A record tagged Fruity and Spicy only, from the style-filter example. -/
def wTags : Wine := { baseWine with style_tags := txt "Fruity, Spicy" }

/-- First of two records sharing price 10. -/
def cexW1 : Wine := { baseWine with title := txt "w1", price := txt "10" }

/-- Second of two records sharing price 10. -/
def cexW2 : Wine := { baseWine with title := txt "w2", price := txt "10" }

/-- A record with price 20. -/
def wP20 : Wine := { baseWine with title := txt "w3", price := txt "20" }

/-- A record with an unparseable price. -/
def wNoPrice : Wine := { baseWine with title := txt "n", price := txt "n/a" }

/-- A record with a valid price above the ascending-sort sentinel. -/
def wHuge : Wine := { baseWine with title := txt "h", price := txt "2000000000" }

/-- A sample dataset row. -/
def sampleRow : Row :=
  ⟨txt "Sample wine", txt "crisp cherry", txt "12.5", txt "88",
   txt "France", txt "Riesling"⟩

theorem hasAny_iff {ws : List (List Char)} {t : List Char} :
    hasAny ws t = true ↔ ∃ w ∈ ws, occurs w t = true := by
  unfold hasAny
  simp [List.any_eq_true]

theorem sweetness_mem (t : List Char) :
    sweetness_from_desc t = txt "Dry" ∨ sweetness_from_desc t = txt "Medium" ∨
      sweetness_from_desc t = txt "Sweet" := by
  unfold sweetness_from_desc
  dsimp only
  split_ifs <;> simp

theorem lowerTxt_nil_iff {t t' : List Char} (h : lowerTxt t = lowerTxt t') :
    t = [] ↔ t' = [] := by
  have hl : t.length = t'.length := by
    simpa [lowerTxt] using congrArg List.length h
  rw [← List.length_eq_zero, ← List.length_eq_zero, hl]

theorem tagList_sub (tl : List Char) : ∀ s ∈ tagList tl, s ∈ tagNames := by
  unfold tagList
  cases hasAny fruity_words tl <;> cases hasAny spicy_words tl <;>
    cases hasAny floral_words tl <;> cases hasAny earthy_words tl <;> decide

theorem tagList_mem_fruity (tl : List Char) :
    txt "Fruity" ∈ tagList tl ↔ hasAny fruity_words tl = true := by
  unfold tagList
  cases hasAny fruity_words tl <;> cases hasAny spicy_words tl <;>
    cases hasAny floral_words tl <;> cases hasAny earthy_words tl <;> decide

theorem tagList_mem_spicy (tl : List Char) :
    txt "Spicy" ∈ tagList tl ↔ hasAny spicy_words tl = true := by
  unfold tagList
  cases hasAny fruity_words tl <;> cases hasAny spicy_words tl <;>
    cases hasAny floral_words tl <;> cases hasAny earthy_words tl <;> decide

theorem tagList_mem_floral (tl : List Char) :
    txt "Floral" ∈ tagList tl ↔ hasAny floral_words tl = true := by
  unfold tagList
  cases hasAny fruity_words tl <;> cases hasAny spicy_words tl <;>
    cases hasAny floral_words tl <;> cases hasAny earthy_words tl <;> decide

theorem tagList_mem_earthy (tl : List Char) :
    txt "Earthy" ∈ tagList tl ↔ hasAny earthy_words tl = true := by
  unfold tagList
  cases hasAny fruity_words tl <;> cases hasAny spicy_words tl <;>
    cases hasAny floral_words tl <;> cases hasAny earthy_words tl <;> decide

/-- C3: sweetness_from_desc follows exactly the precedence the spec states:
conflicting sweet plus dry or medium indicators give Medium; sweet alone
gives Sweet; dry without medium gives Dry; medium gives Medium; otherwise a
literal "dry" substring gives Dry; else Medium.  In particular a text with
both a sweet indicator and a dry indicator classifies as Medium. -/
theorem C3_sweetness_precedence (t : List Char) :
    sweetness_from_desc t = sweetnessSpec t ∧
      (hasAny sweet_words (lowerTxt t) = true →
        hasAny dry_words (lowerTxt t) = true →
        sweetness_from_desc t = txt "Medium") := by
  have key : sweetness_from_desc t = sweetnessSpec t := by
    by_cases h : t = []
    · subst h; decide
    · unfold sweetness_from_desc sweetnessSpec
      rw [if_neg h]
      dsimp only
      cases hs : hasAny sweet_words (lowerTxt t) <;>
        cases hd : hasAny dry_words (lowerTxt t) <;>
          cases hm : hasAny medium_words (lowerTxt t) <;> simp
  refine ⟨key, fun h1 h2 => ?_⟩
  rw [key]
  unfold sweetnessSpec
  dsimp only
  simp [h1, h2]

/-- Witness for C3 at a text containing both a sweet indicator and a dry
indicator. -/
theorem C3_sweetness_precedence_witness :
    hasAny sweet_words (lowerTxt (txt "late harvest, crisp")) = true ∧
      sweetness_from_desc (txt "late harvest, crisp") = txt "Medium" :=
  ⟨by decide,
   (C3_sweetness_precedence (txt "late harvest, crisp")).2 (by decide) (by decide)⟩

/-- C4: sweetness_from_desc always returns one of the three labels, and
returns Medium on the empty text; as a pure total function it has no side
effects and no error conditions. -/
theorem C4_sweetness_total (t : List Char) :
    (sweetness_from_desc t = txt "Dry" ∨ sweetness_from_desc t = txt "Medium" ∨
      sweetness_from_desc t = txt "Sweet") ∧
      sweetness_from_desc [] = txt "Medium" :=
  ⟨sweetness_mem t, by decide⟩

/-- C5: the style-tag set is always a subset of the four defined tag names,
and each tag is a member exactly when some keyword of its group is a
substring of the lower-cased input. -/
theorem C5_style_tags (t : List Char) :
    (∀ s ∈ style_tags_from_desc t, s ∈ tagNames) ∧
      (txt "Fruity" ∈ style_tags_from_desc t ↔
        ∃ w ∈ fruity_words, occurs w (lowerTxt t) = true) ∧
      (txt "Spicy" ∈ style_tags_from_desc t ↔
        ∃ w ∈ spicy_words, occurs w (lowerTxt t) = true) ∧
      (txt "Floral" ∈ style_tags_from_desc t ↔
        ∃ w ∈ floral_words, occurs w (lowerTxt t) = true) ∧
      (txt "Earthy" ∈ style_tags_from_desc t ↔
        ∃ w ∈ earthy_words, occurs w (lowerTxt t) = true) := by
  by_cases h : t = []
  · subst h; decide
  · unfold style_tags_from_desc
    rw [if_neg h]
    exact ⟨tagList_sub _,
      (tagList_mem_fruity _).trans hasAny_iff,
      (tagList_mem_spicy _).trans hasAny_iff,
      (tagList_mem_floral _).trans hasAny_iff,
      (tagList_mem_earthy _).trans hasAny_iff⟩

/-- C10: both classifiers are invariant under letter casing: texts with the
same lower-casing classify identically. -/
theorem C10_case_invariance (t t' : List Char) (h : lowerTxt t = lowerTxt t') :
    sweetness_from_desc t = sweetness_from_desc t' ∧
      style_tags_from_desc t = style_tags_from_desc t' := by
  by_cases ht : t = []
  · have ht' : t' = [] := (lowerTxt_nil_iff h).mp ht
    subst ht; subst ht'; exact ⟨rfl, rfl⟩
  · have ht' : t' ≠ [] := fun e => ht ((lowerTxt_nil_iff h).mpr e)
    constructor
    · unfold sweetness_from_desc
      rw [if_neg ht, if_neg ht', h]
    · unfold style_tags_from_desc
      rw [if_neg ht, if_neg ht', h]

/-- Witness for C10 at a pair of texts differing only in casing. -/
theorem C10_case_invariance_witness :
    lowerTxt (txt "Bone-Dry AND Crisp") = lowerTxt (txt "bone-dry and crisp") ∧
      (sweetness_from_desc (txt "Bone-Dry AND Crisp") =
          sweetness_from_desc (txt "bone-dry and crisp") ∧
        style_tags_from_desc (txt "Bone-Dry AND Crisp") =
          style_tags_from_desc (txt "bone-dry and crisp")) :=
  ⟨by decide, C10_case_invariance _ _ (by decide)⟩

theorem serial_ok (b1 b2 b3 b4 : Bool) :
    tagsStrOk (serializeTags ((cond b1 [txt "Fruity"] []) ++ (cond b2 [txt "Spicy"] []) ++
      (cond b3 [txt "Floral"] []) ++ (cond b4 [txt "Earthy"] []))) = true := by
  cases b1 <;> cases b2 <;> cases b3 <;> cases b4 <;> decide

theorem tags_ok (t : List Char) :
    tagsStrOk (serializeTags (style_tags_from_desc t)) = true := by
  by_cases h : t = []
  · subst h; decide
  · unfold style_tags_from_desc
    rw [if_neg h]
    unfold tagList
    exact serial_ok _ _ _ _

theorem loadAux_mem (limit : Nat) : ∀ (rows : List Row) (n : Nat),
    ∀ w ∈ loadWinesAux limit rows n, ∃ r : Row, r.title ≠ [] ∧ w = mkWineRec r := by
  intro rows
  induction rows with
  | nil => intro n w hw; simp [loadWinesAux] at hw
  | cons r rs ih =>
    intro n w hw
    unfold loadWinesAux at hw
    by_cases ht : r.title = []
    · rw [if_pos ht] at hw; exact ih n w hw
    · rw [if_neg ht] at hw
      by_cases hn : n + 1 ≥ limit
      · rw [if_pos hn] at hw
        simp at hw
        exact ⟨r, ht, hw⟩
      · rw [if_neg hn] at hw
        rcases List.mem_cons.mp hw with he | hm
        · exact ⟨r, ht, he⟩
        · exact ih (n + 1) w hm

theorem loadAux_len (limit : Nat) : ∀ (rows : List Row) (n : Nat), n < limit →
    n + (loadWinesAux limit rows n).length ≤ limit := by
  intro rows
  induction rows with
  | nil => intro n h; simp [loadWinesAux]; omega
  | cons r rs ih =>
    intro n h
    unfold loadWinesAux
    by_cases ht : r.title = []
    · rw [if_pos ht]; exact ih n h
    · rw [if_neg ht]
      by_cases hn : n + 1 ≥ limit
      · rw [if_pos hn]; simp; omega
      · rw [if_neg hn]
        have := ih (n + 1) (by omega)
        simp only [List.length_cons]
        omega

/-- C8: every catalog record built by the loader has a non-empty title, a
sweetness_cat that is one of the three labels, and a style_tags field that
serializes only the four defined tags in strict alphabetical order; and for
any positive row limit (in particular the configured LOAD_LIMIT) the
catalog length never exceeds the limit. -/
theorem C8_loader_invariants (limit : Nat) (rows : List Row) (h : 1 ≤ limit) :
    (∀ w ∈ load_wines limit rows,
      w.title ≠ [] ∧
        (w.sweetness_cat = txt "Dry" ∨ w.sweetness_cat = txt "Medium" ∨
          w.sweetness_cat = txt "Sweet") ∧
        tagsStrOk w.style_tags = true) ∧
      (load_wines limit rows).length ≤ limit := by
  constructor
  · intro w hw
    rcases loadAux_mem limit rows 0 w hw with ⟨r, hr, he⟩
    subst he
    exact ⟨hr, sweetness_mem r.description, tags_ok r.description⟩
  · have := loadAux_len limit rows 0 (by omega)
    simpa [load_wines] using this

/-- Witness for C8 at the configured limit and a one-row dataset. -/
theorem C8_loader_invariants_witness :
    1 ≤ LOAD_LIMIT ∧
      ((∀ w ∈ load_wines LOAD_LIMIT [sampleRow],
        w.title ≠ [] ∧
          (w.sweetness_cat = txt "Dry" ∨ w.sweetness_cat = txt "Medium" ∨
            w.sweetness_cat = txt "Sweet") ∧
          tagsStrOk w.style_tags = true) ∧
        (load_wines LOAD_LIMIT [sampleRow]).length ≤ LOAD_LIMIT) :=
  ⟨by decide, C8_loader_invariants LOAD_LIMIT [sampleRow] (by decide)⟩

/-- C6: when the max-price parameter fails to parse the filter is skipped;
when it parses to p the filter keeps exactly the records whose price parses
to a value at most p. -/
theorem C6_max_price_filter (mp : List Char) (l : List Wine) (p : Dec) :
    (parseDec mp = none → applyMaxPrice mp l = l) ∧
      (parseDec mp = some p →
        ∀ w, w ∈ applyMaxPrice mp l ↔
          w ∈ l ∧ ∃ q, parseDec w.price = some q ∧ q.le p) := by
  constructor
  · intro h
    unfold applyMaxPrice
    by_cases hmp : mp = []
    · rw [if_pos hmp]
    · rw [if_neg hmp, h]
  · intro h w
    have hmp : mp ≠ [] := by
      intro e
      rw [e] at h
      have h0 : parseDec ([] : List Char) = none := by decide
      rw [h0] at h
      exact Option.noConfusion h
    unfold applyMaxPrice
    rw [if_neg hmp, h]
    rw [List.mem_filter]
    apply and_congr_right
    intro _
    cases hq : parseDec w.price with
    | none => simp [hq]
    | some q => simp [hq]

/-- Witness for C6: the price 19.99 record passes the filter at bound 20
and fails it at bound 19. -/
theorem C6_max_price_filter_witness :
    parseDec (txt "20") = some ⟨20, 0⟩ ∧
      w1999 ∈ applyMaxPrice (txt "20") [w1999] ∧
      w1999 ∉ applyMaxPrice (txt "19") [w1999] := by
  refine ⟨by decide, ?_, ?_⟩
  · exact ((C6_max_price_filter (txt "20") [w1999] ⟨20, 0⟩).2 (by decide) w1999).mpr
      ⟨by decide, ⟨1999, 2⟩, by decide, by decide⟩
  · intro hmem
    have hc := ((C6_max_price_filter (txt "19") [w1999] ⟨19, 0⟩).2 (by decide) w1999).mp hmem
    rcases hc.2 with ⟨q, hq, hle⟩
    have hq' : q = ⟨1999, 2⟩ := by
      have : parseDec w1999.price = some ⟨1999, 2⟩ := by decide
      rw [this] at hq
      exact (Option.some.inj hq).symm
    subst hq'
    exact absurd hle (by decide)

/-- C9: for a non-empty style parameter the filter keeps exactly the
records whose style_tags field, split on comma-space, contains the
requested tag byte for byte. -/
theorem C9_style_filter (st : List Char) (l : List Wine) (w : Wine) (h : st ≠ []) :
    w ∈ applyStyle st l ↔ w ∈ l ∧ st ∈ splitCommaSpace w.style_tags := by
  unfold applyStyle
  rw [if_neg h, List.mem_filter]
  apply and_congr_right
  intro _
  simp only [decide_eq_true_eq]
  constructor
  · rintro ⟨_, h2⟩; exact h2
  · intro h2
    refine ⟨fun e => ?_, h2⟩
    rw [e] at h2
    have : st = [] := by simpa [splitCommaSpace] using h2
    exact h this

/-- Witness for C9: a record tagged Fruity and Spicy matches style Spicy
and does not match style Floral. -/
theorem C9_style_filter_witness :
    (txt "Spicy" ≠ [] ∧ wTags ∈ applyStyle (txt "Spicy") [wTags]) ∧
      wTags ∉ applyStyle (txt "Floral") [wTags] := by
  constructor
  · exact ⟨by decide, (C9_style_filter (txt "Spicy") [wTags] wTags (by decide)).mpr
      ⟨by decide, by decide⟩⟩
  · intro hm
    have hc := (C9_style_filter (txt "Floral") [wTags] wTags (by decide)).mp hm
    exact absurd hc.2 (by decide)

/-- C1 (amended): total_pages is max 1 (ceiling of total over page size),
the requested page is clamped into the interval from 1 to total_pages (so
page 0 yields the first page and a page beyond total_pages the last), and
the result is the clamped page's window of the input sequence; no error is
possible.  The bare ceiling formula of the original claim fails on an empty
result set, where the code produces 1. -/
theorem C1_pagination (pg : Int) (l : List Wine) :
    (paginate pg l).total_pages = max 1 ((l.length + per_page - 1) / per_page) ∧
      (paginate pg l).page = max 1 (min pg ((paginate pg l).total_pages : Int)) ∧
      1 ≤ (paginate pg l).page ∧
      (paginate pg l).page ≤ ((paginate pg l).total_pages : Int) ∧
      (paginate pg l).results =
        (l.drop (((paginate pg l).page - 1).toNat * per_page)).take per_page := by
  unfold paginate
  dsimp only
  generalize htp : max 1 ((l.length + per_page - 1) / per_page) = tp
  have h1 : 1 ≤ tp := by rw [← htp]; exact le_max_left _ _
  have h1' : (1 : Int) ≤ (tp : Int) := by exact_mod_cast h1
  have hp2 : 1 ≤ (if (if pg < 1 then (1 : Int) else pg) > (tp : Int) then (tp : Int)
      else if pg < 1 then (1 : Int) else pg) := by
    split_ifs <;> omega
  refine ⟨rfl, ?_, hp2, ?_, ?_⟩
  · simp only [max_def, min_def]
    split_ifs <;> omega
  · split_ifs <;> omega
  · have harg : (((if (if pg < 1 then (1 : Int) else pg) > (tp : Int) then (tp : Int)
        else if pg < 1 then (1 : Int) else pg) - 1) * (per_page : Int)).toNat
        = ((if (if pg < 1 then (1 : Int) else pg) > (tp : Int) then (tp : Int)
        else if pg < 1 then (1 : Int) else pg) - 1).toNat * per_page := by
      simp only [per_page]
      split_ifs <;> omega
    rw [harg]

/-- Counterexample for C1 as stated: on an empty filtered set the code
computes total_pages 1 while the bare ceiling is 0. -/
theorem C1_pagination_cex :
    (paginate 1 ([] : List Wine)).total_pages ≠
      (List.length ([] : List Wine) + per_page - 1) / per_page := by decide

theorem sortWines_asc (l : List Wine) :
    sortWines (txt "price_asc") l = List.insertionSort ascR l := rfl

theorem sortWines_desc (l : List Wine) :
    sortWines (txt "price_desc") l = List.insertionSort descR l := rfl

theorem hasPrice_some {w : Wine} (h : hasPrice w = true) :
    ∃ q, parseDec w.price = some q := by
  unfold hasPrice at h
  cases hq : parseDec w.price with
  | none => rw [hq] at h; simp at h
  | some q => exact ⟨q, rfl⟩

theorem key_asc_eq {w : Wine} {q : Dec} (h : parseDec w.price = some q) :
    priceKeyAsc w = q := by
  unfold priceKeyAsc; rw [h]; rfl

theorem key_desc_eq {w : Wine} {q : Dec} (h : parseDec w.price = some q) :
    priceKeyDesc w = q := by
  unfold priceKeyDesc; rw [h]; rfl

theorem priceVal_eq {w : Wine} {q : Dec} (h : parseDec w.price = some q) :
    priceVal w = q := by
  unfold priceVal; rw [h]; rfl

theorem Dec.lt_of_le_of_nveq {a b : Dec} (h : a.le b) (h2 : ¬ a.veq b) : a.lt b := by
  unfold Dec.le at h
  unfold Dec.veq at h2
  unfold Dec.lt
  exact lt_of_le_of_ne h h2

theorem Dec.veq_symm {a b : Dec} (h : a.veq b) : b.veq a := by
  unfold Dec.veq at h ⊢
  exact h.symm

/-- C2 (amended): restricted to records with parseable prices, ascending
and descending price sorts are exact reverses of one another, provided the
parseable prices in the filtered set are pairwise distinct in value.  The
unqualified claim fails when two records share a price, because Python's
stable sort keeps their original relative order in both directions. -/
theorem C2_price_sort_reversal (l : List Wine)
    (hdist : (l.filter hasPrice).Pairwise fun a b => ¬ (priceVal a).veq (priceVal b)) :
    (sortWines (txt "price_asc") l).filter hasPrice =
      ((sortWines (txt "price_desc") l).filter hasPrice).reverse := by
  rw [sortWines_asc, sortWines_desc]
  have permA : List.Perm ((List.insertionSort ascR l).filter hasPrice)
      (l.filter hasPrice) :=
    (List.perm_insertionSort ascR l).filter hasPrice
  have permD : List.Perm ((List.insertionSort descR l).filter hasPrice)
      (l.filter hasPrice) :=
    (List.perm_insertionSort descR l).filter hasPrice
  have permDrev : List.Perm (((List.insertionSort descR l).filter hasPrice).reverse)
      (l.filter hasPrice) :=
    (List.reverse_perm _).trans permD
  have hsymm : ∀ {x y : Wine},
      ¬ (priceVal x).veq (priceVal y) → ¬ (priceVal y).veq (priceVal x) :=
    fun h e => h (Dec.veq_symm e)
  have hdA : ((List.insertionSort ascR l).filter hasPrice).Pairwise
      (fun a b => ¬ (priceVal a).veq (priceVal b)) :=
    (List.Perm.pairwise_iff hsymm permA).mpr hdist
  have hdD : (((List.insertionSort descR l).filter hasPrice).reverse).Pairwise
      (fun a b => ¬ (priceVal a).veq (priceVal b)) :=
    (List.Perm.pairwise_iff hsymm permDrev).mpr hdist
  have sortedA : ((List.insertionSort ascR l).filter hasPrice).Pairwise strictPrice := by
    have hs : ((List.insertionSort ascR l).filter hasPrice).Pairwise ascR :=
      List.Pairwise.filter hasPrice (List.sorted_insertionSort ascR l)
    apply List.Pairwise.imp_of_mem ?_ (hs.and hdA)
    intro a b ha hb hab
    rcases hasPrice_some (List.mem_filter.mp ha).2 with ⟨qa, hqa⟩
    rcases hasPrice_some (List.mem_filter.mp hb).2 with ⟨qb, hqb⟩
    have h1 : (priceVal a).le (priceVal b) := by
      have h0 := hab.1
      unfold ascR at h0
      rw [key_asc_eq hqa, key_asc_eq hqb] at h0
      rw [priceVal_eq hqa, priceVal_eq hqb]
      exact h0
    exact Dec.lt_of_le_of_nveq h1 hab.2
  have sortedDrev : (((List.insertionSort descR l).filter hasPrice).reverse).Pairwise
      strictPrice := by
    have hs0 : ((List.insertionSort descR l).filter hasPrice).Pairwise descR :=
      List.Pairwise.filter hasPrice (List.sorted_insertionSort descR l)
    have hs : (((List.insertionSort descR l).filter hasPrice).reverse).Pairwise
        (fun a b => descR b a) := List.pairwise_reverse.mpr hs0
    apply List.Pairwise.imp_of_mem ?_ (hs.and hdD)
    intro a b ha hb hab
    have ha' := List.mem_reverse.mp ha
    have hb' := List.mem_reverse.mp hb
    rcases hasPrice_some (List.mem_filter.mp ha').2 with ⟨qa, hqa⟩
    rcases hasPrice_some (List.mem_filter.mp hb').2 with ⟨qb, hqb⟩
    have h1 : (priceVal a).le (priceVal b) := by
      have h0 := hab.1
      unfold descR at h0
      rw [key_desc_eq hqa, key_desc_eq hqb] at h0
      rw [priceVal_eq hqa, priceVal_eq hqb]
      exact h0
    exact Dec.lt_of_le_of_nveq h1 hab.2
  exact List.eq_of_perm_of_sorted (permA.trans permDrev.symm) sortedA sortedDrev

/-- Witness for C2 at a list with two distinct-price records and one
unparseable price. -/
theorem C2_price_sort_reversal_witness :
    (([wP20, cexW1, wNoPrice].filter hasPrice).Pairwise
        fun a b => ¬ (priceVal a).veq (priceVal b)) ∧
      (sortWines (txt "price_asc") [wP20, cexW1, wNoPrice]).filter hasPrice =
        ((sortWines (txt "price_desc") [wP20, cexW1, wNoPrice]).filter hasPrice).reverse :=
  ⟨by decide, C2_price_sort_reversal _ (by decide)⟩

/-- Counterexample for C2 as stated: two records with the same price 10
appear in the same order under both sorts, so the restrictions are not
reverses. -/
theorem C2_price_sort_reversal_cex :
    (sortWines (txt "price_asc") [cexW1, cexW2]).filter hasPrice ≠
      ((sortWines (txt "price_desc") [cexW1, cexW2]).filter hasPrice).reverse := by
  decide

/-- C7 (amended): under price_asc every unparseable-price record is ordered
before only those valid prices that are at least the 10^9 sentinel (hence
after every valid price below it); under price_desc it is ordered before
only valid prices at most the -1 sentinel (hence after every valid price
above it); under points_desc the output is sorted by the points key in
which missing points count as zero; any other sort value leaves the list in
input order. -/
theorem C7_sort_sentinels (l : List Wine) (s : List Char) :
    ((List.insertionSort ascR l).Pairwise fun a b =>
        parseDec a.price = none → ∀ q, parseDec b.price = some q →
          (Dec.mk (10 ^ 9) 0).le q) ∧
      ((List.insertionSort descR l).Pairwise fun a b =>
        parseDec a.price = none → ∀ q, parseDec b.price = some q →
          q.le ⟨-1, 0⟩) ∧
      ((List.insertionSort ptsR l).Pairwise fun a b => (pointsKey b).le (pointsKey a)) ∧
      (∀ w : Wine, parseDec w.points = none → pointsKey w = ⟨0, 0⟩) ∧
      (s ≠ txt "price_asc" → s ≠ txt "price_desc" → s ≠ txt "points_desc" →
        sortWines s l = l) := by
  refine ⟨?_, ?_, ?_, ?_, ?_⟩
  · refine List.Pairwise.imp ?_ (List.sorted_insertionSort ascR l)
    intro a b hab hn q hq
    unfold ascR priceKeyAsc at hab
    rw [hn, hq] at hab
    exact hab
  · refine List.Pairwise.imp ?_ (List.sorted_insertionSort descR l)
    intro a b hab hn q hq
    unfold descR priceKeyDesc at hab
    rw [hn, hq] at hab
    exact hab
  · exact List.sorted_insertionSort ptsR l
  · intro w h
    unfold pointsKey
    rw [h]
    rfl
  · intro h1 h2 h3
    unfold sortWines
    rw [if_neg h1, if_neg h2, if_neg h3]

/-- Witness for C7 at an unrecognized sort value. -/
theorem C7_sort_sentinels_witness :
    txt "x" ≠ txt "price_asc" ∧ sortWines (txt "x") [cexW1, wNoPrice] = [cexW1, wNoPrice] :=
  ⟨by decide,
   (C7_sort_sentinels [cexW1, wNoPrice] (txt "x")).2.2.2.2 (by decide) (by decide) (by decide)⟩

/-- Counterexample for C7 as stated: a record with the valid price
2000000000 sorts after the unparseable-price record under price_asc, so
unparseable prices do not sort after every valid price. -/
theorem C7_sort_sentinels_cex :
    ¬ ((List.insertionSort ascR [wNoPrice, wHuge]).Pairwise fun a b =>
        parseDec a.price = none → parseDec b.price = none) := by
  decide

end WineApp
